import Mathlib

/-!
Verification of the TeleVault chunk-store core: a shallow embedding of
`backend/app/telegram_worker.py` (worker pool and chunk manager),
`backend/app/cache.py` (permission cache) and
`backend/app/permissions.py` (authorization check), with theorems about
chunking, ordering, caching, retry and deletion behaviour.

Bytes are modelled as natural numbers and byte strings as `List Nat`.
Machine state that Python mutates (round-robin cursor, transport store,
cache map) is threaded explicitly.  Wall-clock timestamps are naturals
(`datetime.utcnow()` becomes an explicit `now` argument).
-/

namespace TeleVault

/-- A chunk payload: a byte string. -/
abbrev Chunk := List Nat

/-! ## Chunk collection (`ChunkManager.stream_upload`, lines 143-161)

The Python code drains a growing `bytearray` buffer: while the buffer
holds at least `chunk_size` bytes it slices off a chunk and increments
`chunk_index`; after the stream ends, any non-empty remainder becomes the
final chunk.  The inner `while` loop is embedded with an explicit fuel
argument equal to the buffer length: each iteration removes
`chunk_size ≥ 1` bytes, so that fuel is always sufficient. -/

/-- One pass of the `while len(buffer) >= self.chunk_size` loop
(telegram_worker.py lines 152-156): emits `(chunk_index, chunk)` pairs for
every complete chunk in `buf`, returning the emitted list, the leftover
buffer and the next chunk index. -/
def drainBufferFuel (C : Nat) : Nat → List Nat → Nat →
    List (Nat × Chunk) × List Nat × Nat
  | 0, buf, idx => ([], buf, idx)
  | fuel + 1, buf, idx =>
    if 0 < C ∧ C ≤ buf.length then
      let r := drainBufferFuel C fuel (buf.drop C) (idx + 1)
      ((idx, buf.take C) :: r.1, r.2.1, r.2.2)
    else ([], buf, idx)

/-- The buffer-draining loop with its natural fuel bound. -/
def drainBuffer (C : Nat) (buf : List Nat) (idx : Nat) :
    List (Nat × Chunk) × List Nat × Nat :=
  drainBufferFuel C buf.length buf idx

/-- The `async for data in file_stream` loop (lines 148-156): each stream
piece is appended to the buffer, then complete chunks are drained. -/
def streamCollect (C : Nat) : List (List Nat) → List Nat → Nat →
    List (Nat × Chunk) × List Nat × Nat
  | [], buf, idx => ([], buf, idx)
  | d :: rest, buf, idx =>
    let r1 := drainBuffer C (buf ++ d) idx
    let r2 := streamCollect C rest r1.2.1 r1.2.2
    (r1.1 ++ r2.1, r2.2.1, r2.2.2)

/-- `chunks_to_upload` as built by lines 143-161: drain the stream, then
append the remaining buffer as a final short chunk when non-empty. -/
def chunksToUpload (C : Nat) (stream : List (List Nat)) : List (Nat × Chunk) :=
  let r := streamCollect C stream [] 0
  if 0 < r.2.1.length then r.1 ++ [(r.2.2, r.2.1)] else r.1

/-! ### Specification helpers for the chunking loop -/

/-- Pair each list element with its position, starting at `i`. -/
def withIndexFrom (i : Nat) : List Chunk → List (Nat × Chunk)
  | [] => []
  | c :: l => (i, c) :: withIndexFrom (i + 1) l

/-- The complete (`C`-sized) chunks of a byte string. -/
def fullChunks (C : Nat) (data : List Nat) : List Chunk :=
  if h : 0 < C ∧ C ≤ data.length then
    data.take C :: fullChunks C (data.drop C)
  else []
termination_by data.length
decreasing_by simp [List.length_drop]; omega

/-- The remainder of a byte string after all complete chunks are removed. -/
def remChunk (C : Nat) (data : List Nat) : List Nat :=
  if h : 0 < C ∧ C ≤ data.length then remChunk C (data.drop C) else data
termination_by data.length
decreasing_by simp [List.length_drop]; omega

/-- All chunks of a byte string: the complete ones plus the non-empty
remainder. -/
def allChunks (C : Nat) (data : List Nat) : List Chunk :=
  fullChunks C data ++ if remChunk C data = [] then [] else [remChunk C data]

/-! ## Worker pool (`TelegramWorkerPool`, telegram_worker.py lines 13-122)

The pool holds `N` bots.  The mutable round-robin cursor
(`self._current_index`, always kept in `[0, N)` by the `% N` update) is
threaded explicitly.  The Telegram transport is modelled by a chunk store
`List Chunk`: a successful `send_document` appends the chunk and returns
the fresh position as both `message_id` and `file_id`; `get_file` +
`download_to_memory` read the stored chunk back. -/

/-- `TelegramWorkerPool.get_bot` (lines 23-31): an explicit index is used
only when the Python check `0 <= index < self.bot_count` passes (the
index may be any integer); otherwise the cursor is returned and advanced
modulo `N`.  Returns `(selected bot index, new cursor)`. -/
def get_bot (N : Nat) (index : Option Int) (cur : Nat) : Nat × Nat :=
  match index with
  | some i =>
    if 0 ≤ i ∧ i < (N : Int) then (i.toNat, cur)
    else (cur, (cur + 1) % N)
  | none => (cur, (cur + 1) % N)

/-- The bot indices produced by `k` successive `get_bot(None)` calls. -/
def rrRun (N : Nat) (cur : Nat) : Nat → List Nat
  | 0 => []
  | k + 1 =>
    let g := get_bot N none cur
    g.1 :: rrRun N g.2 k

/-- One transport response to a `send_document` attempt: success, a
`RetryAfter` rate-limit signal carrying a wait duration, or another
`TelegramError`. -/
inductive TgResp where
  | ok : TgResp
  | retryAfter (wait : Nat) : TgResp
  | err : TgResp
deriving DecidableEq, Repr

/-- Observable outcome of one `TelegramWorkerPool.upload_chunk` call:
`result` is `(message_id, file_id, bot_index_used)` when the call
returns normally, `none` when a `TelegramError` propagates (or the
response script is exhausted); `store` is the transport state after the
call; `sleeps` records the `asyncio.sleep` durations in order;
`attempts` counts transport send attempts; `botsUsed` records the bot
selected for each attempt. -/
structure UploadRes where
  result : Option (Nat × Nat × Nat)
  cursor : Nat
  store : List Chunk
  sleeps : List Nat
  attempts : Nat
  botsUsed : List Nat
deriving DecidableEq, Repr

/-- `TelegramWorkerPool.upload_chunk` (lines 33-73) run against a
scripted list of transport responses, one per attempt.  On success the
ids come from the store; on `RetryAfter e` the code logs, sleeps
`e.retry_after` and recursively calls itself with `bot_index=None`
(lines 65-69); on any other `TelegramError` it re-raises (lines 71-73). -/
def upload_chunk (N : Nat) : List TgResp → Option Int → Nat → List Chunk →
    Chunk → UploadRes
  | [], _, cur, env, _ => ⟨none, cur, env, [], 0, []⟩
  | r :: rest, bi, cur, env, chunk =>
    let g := get_bot N bi cur
    match r with
    | .ok =>
      ⟨some (env.length, env.length, g.1), g.2, env ++ [chunk], [], 1, [g.1]⟩
    | .retryAfter w =>
      let u := upload_chunk N rest none g.2 env chunk
      ⟨u.result, u.cursor, u.store, w :: u.sleeps, u.attempts + 1,
        g.1 :: u.botsUsed⟩
    | .err => ⟨none, g.2, env, [], 1, [g.1]⟩

/-- Transport outcome of the `bot.delete_message` call. -/
inductive DelResp where
  | ok : DelResp
  | telegramErr : DelResp
deriving DecidableEq, Repr

/-- The `bot.delete_message` transport call inside `delete_chunk`:
either succeeds or raises a `TelegramError`. -/
def sendDelete : DelResp → Except Unit Unit
  | .ok => .ok ()
  | .telegramErr => .error ()

/-- `TelegramWorkerPool.delete_chunk` (lines 103-122): runs the delete,
returns `True` on success, and catches `TelegramError` returning
`False`; no exception escapes. -/
def delete_chunk (r : DelResp) : Bool :=
  match sendDelete r with
  | .ok _ => true
  | .error _ => false

/-! ## ChunkManager upload (`ChunkManager.stream_upload`, lines 163-200)

After chunk collection the manager uploads the chunk list through the
pool.  With at most one worker or at most one chunk it uploads
sequentially in index order (lines 167-179); otherwise it dispatches one
task per chunk, gathers the per-task results, and re-sorts them by chunk
index (lines 180-198).  Transport completion order is modelled by a list
`sched` of task positions in the order the sends complete: the shared
transport store and round-robin cursor are touched in that order, and
the gathered result list is taken in completion order before sorting. -/

/-- A chunk descriptor as returned by `stream_upload`:
`(chunk_index, message_id, file_id, bot_index, chunk_size)`. -/
structure ChunkMeta where
  chunk_index : Nat
  message_id : Nat
  file_id : Nat
  bot_index : Nat
  chunk_size : Nat
deriving DecidableEq, Repr

/-- The successful path of one `upload_chunk(channel_id, chunk_data)`
call made by `stream_upload` (no rate limiting): select a bot
round-robin, send the chunk, obtain fresh `message_id = file_id =
store.length`.  Returns `((message_id, file_id, bot_index), new cursor,
new store)`; this is `upload_chunk` with a single `ok` response. -/
def uploadOk (N : Nat) (cur : Nat) (env : List Chunk) (chunk : Chunk) :
    (Nat × Nat × Nat) × Nat × List Chunk :=
  let g := get_bot N none cur
  ((env.length, env.length, g.1), g.2, env ++ [chunk])

/-- Execute the per-chunk upload tasks in completion order `sched` (a
list of positions into `tasks`): each completing task runs the success
path of `upload_chunk` and its result
`(chunk_idx, message_id, file_id, bot_index, len(chunk_data))` is
collected in completion order (lines 182-195).  Returns the gathered
results, the final cursor and the final store. -/
def runUploads (N : Nat) (tasks : List (Nat × Chunk)) :
    List Nat → Nat → List Chunk → List ChunkMeta × Nat × List Chunk
  | [], cur, env => ([], cur, env)
  | p :: sched, cur, env =>
    match tasks[p]? with
    | some (idx, chunk) =>
      let u := uploadOk N cur env chunk
      let r := runUploads N tasks sched u.2.1 u.2.2
      (⟨idx, u.1.1, u.1.2.1, u.1.2.2, chunk.length⟩ :: r.1, r.2.1, r.2.2)
    | none => runUploads N tasks sched cur env

/-- The ordering used by `sorted(results, key=lambda x: x[0])`
(line 198). -/
def metaLe (a b : ChunkMeta) : Prop := a.chunk_index ≤ b.chunk_index

instance : DecidableRel metaLe :=
  fun a b => inferInstanceAs (Decidable (a.chunk_index ≤ b.chunk_index))

instance : IsTotal ChunkMeta metaLe := ⟨fun a b => Nat.le_total _ _⟩

instance : IsTrans ChunkMeta metaLe := ⟨fun _ _ _ => Nat.le_trans⟩

/-- `ChunkManager.stream_upload` (lines 133-200) for worker count `N`,
chunk size `C`, input stream `stream`, transport completion order
`sched`, initial round-robin cursor `cur` and initial transport store
`env`.  Returns the descriptor list, final cursor and final store. -/
def stream_upload (N C : Nat) (stream : List (List Nat)) (sched : List Nat)
    (cur : Nat) (env : List Chunk) : List ChunkMeta × Nat × List Chunk :=
  let tasks := chunksToUpload C stream
  if min N tasks.length ≤ 1 then
    runUploads N tasks (List.range tasks.length) cur env
  else
    let r := runUploads N tasks sched cur env
    (List.insertionSort metaLe r.1, r.2.1, r.2.2)

/-! ## ChunkManager download (`ChunkManager.stream_download`,
lines 202-254)

The downloader keeps a window (3) of in-flight fetch tasks keyed by
chunk index and yields strictly in index order: it repeatedly awaits the
task for `next_yield_index`, yields its bytes, and starts the next
queued fetch.  A run is modelled as a small-step machine driven by an
arbitrary event schedule: `complete j` marks fetch task `j` as finished
(transport completion is adversarial); `consume` is one iteration of the
yield loop, which yields only once the task for `next_yield_index` has
completed (the `await`) and otherwise changes nothing (waiting /
the sleep branch). -/

inductive DlEvent where
  | complete (j : Nat) : DlEvent
  | consume : DlEvent
deriving DecidableEq, Repr

/-- State of the download pipeline: the not-yet-started chunk refs
(`download_queue`), the refs of created tasks (list position = task key;
`taskRefs.length` is the running `chunk_index` counter of the code), the
completed task indices, `next_yield_index`, and the `(index, bytes)`
pairs yielded so far in order. -/
structure DlState where
  queue : List (Nat × Nat)
  taskRefs : List (Nat × Nat)
  done : List Nat
  nextYield : Nat
  out : List (Nat × Chunk)
deriving DecidableEq, Repr

/-- Initial state (lines 220-232): tasks started for the first
`min 3 (len chunks)` refs, the rest queued. -/
def dlInit (refs : List (Nat × Nat)) : DlState :=
  ⟨refs.drop (min 3 refs.length), refs.take (min 3 refs.length), [], 0, []⟩

/-- `bot.get_file` + `download_to_memory` against the chunk store:
fetching a `(file_id, bot_index)` ref returns the stored chunk (the bot
used does not change the bytes). -/
def fetchChunk (env : List Chunk) (ref : Nat × Nat) : Chunk :=
  env.getD ref.1 []

/-- One scheduler event applied to the download machine (lines
234-254). -/
def dlStep (env : List Chunk) (s : DlState) : DlEvent → DlState
  | .complete j =>
    if j < s.taskRefs.length ∧ j ∉ s.done then
      ⟨s.queue, s.taskRefs, j :: s.done, s.nextYield, s.out⟩
    else s
  | .consume =>
    if s.nextYield < s.taskRefs.length ∧ s.nextYield ∈ s.done then
      let data := fetchChunk env (s.taskRefs.getD s.nextYield (0, 0))
      match s.queue with
      | [] => ⟨[], s.taskRefs, s.done, s.nextYield + 1,
          s.out ++ [(s.nextYield, data)]⟩
      | ref :: q => ⟨q, s.taskRefs ++ [ref], s.done, s.nextYield + 1,
          s.out ++ [(s.nextYield, data)]⟩
    else s

/-- Run the download machine over a schedule of events. -/
def dlRun (env : List Chunk) (refs : List (Nat × Nat))
    (evs : List DlEvent) : DlState :=
  evs.foldl (dlStep env) (dlInit refs)

/-- `ChunkManager.stream_download` (lines 202-254): with at most one
chunk the refs are fetched sequentially in order (lines 213-217);
otherwise the windowed pipeline runs under the given schedule.  The
output is the ordered list of `(chunk_index, bytes)` yields. -/
def stream_download (env : List Chunk) (refs : List (Nat × Nat))
    (evs : List DlEvent) : List (Nat × Chunk) :=
  if min 3 refs.length ≤ 1 then
    withIndexFrom 0 (refs.map (fetchChunk env))
  else (dlRun env refs evs).out

/-- Invariant of the download machine: tasks are created for a prefix of
the refs in order, the queue is the matching suffix, and the output so
far is exactly the first `nextYield` chunks fetched, tagged with their
indices in ascending order. -/
def DlInv (env : List Chunk) (refs : List (Nat × Nat)) (s : DlState) :
    Prop :=
  s.taskRefs = refs.take s.taskRefs.length ∧
  s.queue = refs.drop s.taskRefs.length ∧
  s.nextYield ≤ s.taskRefs.length ∧
  s.taskRefs.length ≤ refs.length ∧
  s.out = withIndexFrom 0 ((refs.take s.nextYield).map (fetchChunk env))

/-! ## Permission cache (`cache.py` lines 8-55)

The Python dict `self._cache : (storage_id, user_id) -> (has_access,
role, cached_at)` is modelled as an association list with unique keys
(a dict never holds two entries for one key); `datetime.utcnow()` is an
explicit `now : Nat` argument and the TTL a natural number in the same
unit.  `now - cached_at < ttl` uses truncated natural subtraction, which
agrees with the Python timedelta comparison whenever `cached_at ≤ now`. -/

/-- `UserRole` (models.py lines 8-12). -/
inductive UserRole where
  | viewer : UserRole
  | editor : UserRole
  | admin : UserRole
deriving DecidableEq, Repr

abbrev CacheKey := Nat × Nat

abbrev CacheMap := List (CacheKey × (Bool × UserRole × Nat))

/-- Dict lookup `self._cache[key]` / `key in self._cache`. -/
def cacheLookup : CacheMap → CacheKey → Option (Bool × UserRole × Nat)
  | [], _ => none
  | e :: m, k => if e.1 = k then some e.2 else cacheLookup m k

/-- Dict assignment `self._cache[key] = value`: overwrite or add. -/
def cacheInsert : CacheMap → CacheKey → Bool × UserRole × Nat → CacheMap
  | [], k, v => [(k, v)]
  | e :: m, k, v => if e.1 = k then (k, v) :: m else e :: cacheInsert m k v

/-- Dict deletion `del self._cache[key]`. -/
def cacheErase : CacheMap → CacheKey → CacheMap
  | [], _ => []
  | e :: m, k => if e.1 = k then m else e :: cacheErase m k

namespace PermissionCache

/-- `PermissionCache.get` (cache.py lines 17-31): return the cached
`(has_access, role)` if the entry is younger than the TTL; evict an
expired entry and return `None`.  Returns the optional value and the map
after the call. -/
def get (ttl : Nat) (m : CacheMap) (now sid uid : Nat) :
    Option (Bool × UserRole) × CacheMap :=
  match cacheLookup m (sid, uid) with
  | some (a, r, t) =>
    if now - t < ttl then (some (a, r), m)
    else (none, cacheErase m (sid, uid))
  | none => (none, m)

/-- `PermissionCache.set` (cache.py lines 33-37): unconditional upsert
stamped with the current time. -/
def set (m : CacheMap) (now sid uid : Nat) (a : Bool) (r : UserRole) :
    CacheMap :=
  cacheInsert m (sid, uid) (a, r, now)

/-- `PermissionCache.invalidate(storage_id)` with no user (cache.py
lines 46-50): remove every entry of that storage. -/
def invalidate (m : CacheMap) (sid : Nat) : CacheMap :=
  m.filter (fun e => e.1.1 != sid)

end PermissionCache

/-! ## Authorization check (`permissions.py` lines 10-81) -/

/-- A `Storage` row: only the owner id matters to the check. -/
structure StorageRow where
  owner_id : Nat
deriving DecidableEq, Repr

/-- The durable stores consulted by `check_storage_permission`:
`session.get(Storage, storage_id)` and the `StoragePermission` rows
keyed by `(storage_id, user_id)`. -/
structure DB where
  storages : List (Nat × StorageRow)
  perms : List ((Nat × Nat) × UserRole)
deriving DecidableEq, Repr

/-- `session.get(Storage, storage_id)`. -/
def dbGetStorage (db : DB) (sid : Nat) : Option StorageRow :=
  match db.storages.find? (fun e => e.1 == sid) with
  | some e => some e.2
  | none => none

/-- `session.exec(select(StoragePermission).where(...)).first()`
(permissions.py lines 57-61): the durable permission-store query. -/
def dbGetPerm (db : DB) (sid uid : Nat) : Option UserRole :=
  match db.perms.find? (fun e => e.1 == (sid, uid)) with
  | some e => some e.2
  | none => none

/-- `role_hierarchy` (permissions.py lines 24-28). -/
def role_hierarchy : UserRole → Nat
  | .viewer => 1
  | .editor => 2
  | .admin => 3

/-- The `HTTPException`s raised by `check_storage_permission`. -/
inductive PermError where
  | notFound : PermError
  | accessDenied : PermError
  | insufficientRole : PermError
deriving DecidableEq, Repr

instance {ε α : Type} [DecidableEq ε] [DecidableEq α] :
    DecidableEq (Except ε α)
  | .ok a, .ok b =>
    if h : a = b then .isTrue (by rw [h])
    else .isFalse (by intro hc; cases hc; exact h rfl)
  | .ok _, .error _ => .isFalse (by intro hc; cases hc)
  | .error _, .ok _ => .isFalse (by intro hc; cases hc)
  | .error e, .error f =>
    if h : e = f then .isTrue (by rw [h])
    else .isFalse (by intro hc; cases hc; exact h rfl)

/-- Outcome of one `check_storage_permission` call: the returned storage
row or raised error, the cache map afterwards, and whether the durable
permission store (lines 57-61) was queried during the call. -/
structure CheckResult where
  result : Except PermError StorageRow
  cache : CacheMap
  permQueried : Bool
deriving DecidableEq, Repr

/-- The fall-through full check of `check_storage_permission`
(permissions.py lines 42-81), reached on cache miss or whenever the
cached entry does not grant sufficient access. -/
def fullCheck (db : DB) (now sid uid : Nat) (required : UserRole)
    (m : CacheMap) : CheckResult :=
  match dbGetStorage db sid with
  | none => ⟨.error .notFound, m, false⟩
  | some st =>
    if st.owner_id = uid then
      ⟨.ok st, PermissionCache.set m now sid uid true .admin, false⟩
    else
      match dbGetPerm db sid uid with
      | none =>
        ⟨.error .accessDenied,
          PermissionCache.set m now sid uid false .viewer, true⟩
      | some role =>
        let m2 := PermissionCache.set m now sid uid true role
        if role_hierarchy role < role_hierarchy required then
          ⟨.error .insufficientRole, m2, true⟩
        else ⟨.ok st, m2, true⟩

/-- `check_storage_permission` (permissions.py lines 10-81): the cache is
consulted first; a positive cached entry with sufficient role
short-circuits to fetching the storage row only (lines 32-40),
invalidating the cache if the storage disappeared; every other case -
including a cached negative entry - falls through to the full durable
check (lines 42-81). -/
def check_storage_permission (ttl : Nat) (db : DB) (now sid uid : Nat)
    (required : UserRole) (m : CacheMap) : CheckResult :=
  let g := PermissionCache.get ttl m now sid uid
  match g.1 with
  | some (has_access, cached_role) =>
    if has_access ∧ role_hierarchy required ≤ role_hierarchy cached_role then
      match dbGetStorage db sid with
      | some st => ⟨.ok st, g.2, false⟩
      | none =>
        fullCheck db now sid uid required (PermissionCache.invalidate g.2 sid)
    else fullCheck db now sid uid required g.2
  | none => fullCheck db now sid uid required g.2


theorem withIndexFrom_append (i : Nat) (l₁ l₂ : List Chunk) :
    withIndexFrom i (l₁ ++ l₂) =
      withIndexFrom i l₁ ++ withIndexFrom (i + l₁.length) l₂ := by
  induction l₁ generalizing i with
  | nil => simp [withIndexFrom]
  | cons c l ih =>
    simp [withIndexFrom, ih, Nat.add_assoc, Nat.add_comm 1 l.length]

theorem length_withIndexFrom (i : Nat) (l : List Chunk) :
    (withIndexFrom i l).length = l.length := by
  induction l generalizing i with
  | nil => rfl
  | cons c l ih => simp [withIndexFrom, ih]

theorem map_fst_withIndexFrom (i : Nat) (l : List Chunk) :
    (withIndexFrom i l).map Prod.fst = List.range' i l.length := by
  induction l generalizing i with
  | nil => rfl
  | cons c l ih => simp [withIndexFrom, ih, List.range'_succ]

theorem map_snd_withIndexFrom (i : Nat) (l : List Chunk) :
    (withIndexFrom i l).map Prod.snd = l := by
  induction l generalizing i with
  | nil => rfl
  | cons c l ih => simp [withIndexFrom, ih]

theorem remChunk_length_lt (C : Nat) (hC : 0 < C) (data : List Nat) :
    (remChunk C data).length < C := by
  induction data using remChunk.induct C with
  | case1 data h ih => rw [remChunk, dif_pos h]; exact ih
  | case2 data h =>
    rw [remChunk, dif_neg h]
    rcases Nat.lt_or_ge data.length C with h' | h'
    · exact h'
    · exact absurd ⟨hC, h'⟩ h

theorem fullChunks_mem_length (C : Nat) (data : List Nat) :
    ∀ c ∈ fullChunks C data, c.length = C := by
  induction data using fullChunks.induct C with
  | case1 data h ih =>
    rw [fullChunks, dif_pos h]
    intro c hc
    rcases List.mem_cons.mp hc with rfl | hc
    · simp [List.length_take]; omega
    · exact ih c hc
  | case2 data h => rw [fullChunks, dif_neg h]; intro c hc; cases hc

theorem join_fullChunks_remChunk (C : Nat) (data : List Nat) :
    (fullChunks C data).flatten ++ remChunk C data = data := by
  induction data using fullChunks.induct C with
  | case1 data h ih =>
    rw [fullChunks, dif_pos h, remChunk, dif_pos h]
    simp only [List.flatten_cons, List.append_assoc, ih]
    exact List.take_append_drop C data
  | case2 data h => rw [fullChunks, dif_neg h, remChunk, dif_neg h]; simp

theorem fullChunks_length (C : Nat) (hC : 0 < C) (data : List Nat) :
    (fullChunks C data).length = data.length / C := by
  induction data using fullChunks.induct C with
  | case1 data h ih =>
    rw [fullChunks, dif_pos h]
    simp only [List.length_cons, ih, List.length_drop]
    rw [Nat.div_eq_sub_div hC h.2]
  | case2 data h =>
    rw [fullChunks, dif_neg h]
    have : data.length < C := by
      rcases Nat.lt_or_ge data.length C with h' | h'
      · exact h'
      · exact absurd ⟨hC, h'⟩ h
    simp [Nat.div_eq_of_lt this]

theorem remChunk_length_mod (C : Nat) (hC : 0 < C) (data : List Nat) :
    (remChunk C data).length = data.length % C := by
  induction data using remChunk.induct C with
  | case1 data h ih =>
    rw [remChunk, dif_pos h]
    rw [ih, List.length_drop]
    conv_rhs => rw [show data.length = (data.length - C) + C by omega]
    rw [Nat.add_mod_right]
  | case2 data h =>
    rw [remChunk, dif_neg h]
    have : data.length < C := by
      rcases Nat.lt_or_ge data.length C with h' | h'
      · exact h'
      · exact absurd ⟨hC, h'⟩ h
    rw [Nat.mod_eq_of_lt this]

theorem fullChunks_pos_eq (C : Nat) (data : List Nat)
    (h : 0 < C ∧ C ≤ data.length) :
    fullChunks C data = data.take C :: fullChunks C (data.drop C) := by
  conv_lhs => rw [fullChunks]
  exact dif_pos h

theorem fullChunks_neg_eq (C : Nat) (data : List Nat)
    (h : ¬(0 < C ∧ C ≤ data.length)) :
    fullChunks C data = [] := by
  conv_lhs => rw [fullChunks]
  exact dif_neg h

theorem remChunk_pos_eq (C : Nat) (data : List Nat)
    (h : 0 < C ∧ C ≤ data.length) :
    remChunk C data = remChunk C (data.drop C) := by
  conv_lhs => rw [remChunk]
  exact dif_pos h

theorem remChunk_neg_eq (C : Nat) (data : List Nat)
    (h : ¬(0 < C ∧ C ≤ data.length)) :
    remChunk C data = data := by
  conv_lhs => rw [remChunk]
  exact dif_neg h

theorem fullChunks_remChunk_append (C : Nat) (x y : List Nat) :
    fullChunks C (x ++ y) = fullChunks C x ++ fullChunks C (remChunk C x ++ y) ∧
    remChunk C (x ++ y) = remChunk C (remChunk C x ++ y) := by
  induction x using fullChunks.induct C with
  | case1 x h ih =>
    have hcond : 0 < C ∧ C ≤ (x ++ y).length := by
      simp only [List.length_append]; omega
    have htake : (x ++ y).take C = x.take C :=
      List.take_append_of_le_length h.2
    have hdrop : (x ++ y).drop C = x.drop C ++ y :=
      List.drop_append_of_le_length h.2
    constructor
    · rw [fullChunks_pos_eq C (x ++ y) hcond, htake, hdrop, ih.1,
        fullChunks_pos_eq C x h, remChunk_pos_eq C x h]
      simp
    · rw [remChunk_pos_eq C (x ++ y) hcond, hdrop, ih.2, remChunk_pos_eq C x h]
  | case2 x h =>
    rw [fullChunks_neg_eq C x h, remChunk_neg_eq C x h]
    simp

theorem drainBufferFuel_succ (C fuel : Nat) (buf : List Nat) (idx : Nat) :
    drainBufferFuel C (fuel + 1) buf idx =
      if 0 < C ∧ C ≤ buf.length then
        let r := drainBufferFuel C fuel (buf.drop C) (idx + 1)
        ((idx, buf.take C) :: r.1, r.2.1, r.2.2)
      else ([], buf, idx) := rfl

theorem drainBufferFuel_spec (C : Nat) (hC : 0 < C) :
    ∀ fuel buf idx, buf.length ≤ fuel →
      drainBufferFuel C fuel buf idx =
        (withIndexFrom idx (fullChunks C buf), remChunk C buf,
         idx + (fullChunks C buf).length) := by
  intro fuel
  induction fuel with
  | zero =>
    intro buf idx hlen
    have hbuf : buf = [] := List.length_eq_zero.mp (Nat.le_zero.mp hlen)
    subst hbuf
    have h : ¬(0 < C ∧ C ≤ ([] : List Nat).length) := by
      simp only [List.length_nil]; omega
    rw [fullChunks_neg_eq C [] h, remChunk_neg_eq C [] h]
    rfl
  | succ fuel ih =>
    intro buf idx hlen
    by_cases h : 0 < C ∧ C ≤ buf.length
    · have hdl : (buf.drop C).length ≤ fuel := by
        simp only [List.length_drop]; omega
      rw [drainBufferFuel_succ, if_pos h, ih (buf.drop C) (idx + 1) hdl,
        fullChunks_pos_eq C buf h, remChunk_pos_eq C buf h]
      simp only [withIndexFrom, List.length_cons, Prod.mk.injEq, true_and]
      omega
    · rw [drainBufferFuel_succ, if_neg h, fullChunks_neg_eq C buf h,
        remChunk_neg_eq C buf h]
      rfl

theorem drainBuffer_spec (C : Nat) (hC : 0 < C) (buf : List Nat) (idx : Nat) :
    drainBuffer C buf idx =
      (withIndexFrom idx (fullChunks C buf), remChunk C buf,
       idx + (fullChunks C buf).length) :=
  drainBufferFuel_spec C hC buf.length buf idx (Nat.le_refl _)

theorem streamCollect_spec (C : Nat) (hC : 0 < C) :
    ∀ (stream : List (List Nat)) (buf : List Nat) (idx : Nat),
      buf.length < C →
      streamCollect C stream buf idx =
        (withIndexFrom idx (fullChunks C (buf ++ stream.flatten)),
         remChunk C (buf ++ stream.flatten),
         idx + (fullChunks C (buf ++ stream.flatten)).length) := by
  intro stream
  induction stream with
  | nil =>
    intro buf idx hbuf
    have h : ¬(0 < C ∧ C ≤ buf.length) := by omega
    rw [List.flatten_nil, List.append_nil, fullChunks_neg_eq C buf h,
      remChunk_neg_eq C buf h]
    rfl
  | cons d rest ih =>
    intro buf idx hbuf
    have hflat : buf ++ (d :: rest).flatten = (buf ++ d) ++ rest.flatten := by
      rw [List.flatten_cons, List.append_assoc]
    have hsplit := fullChunks_remChunk_append C (buf ++ d) rest.flatten
    have hrem : (remChunk C (buf ++ d)).length < C := remChunk_length_lt C hC _
    rw [hflat, hsplit.1, hsplit.2, streamCollect]
    simp only [drainBuffer_spec C hC]
    rw [ih _ _ hrem, withIndexFrom_append]
    simp only [List.length_append, length_withIndexFrom, Prod.mk.injEq, true_and]
    omega

theorem chunksToUpload_eq (C : Nat) (hC : 0 < C) (stream : List (List Nat)) :
    chunksToUpload C stream = withIndexFrom 0 (allChunks C stream.flatten) := by
  rw [chunksToUpload]
  simp only [streamCollect_spec C hC stream [] 0 (by simpa using hC), List.nil_append]
  by_cases h : remChunk C stream.flatten = []
  · rw [allChunks, h, if_pos rfl]
    simp [h]
  · rw [allChunks, if_neg h]
    have hlen : 0 < (remChunk C stream.flatten).length :=
      List.length_pos.mpr h
    rw [if_pos hlen, withIndexFrom_append]
    simp [withIndexFrom]

theorem ceil_div_eq (C S : Nat) (hC : 0 < C) :
    S / C + (if S % C = 0 then 0 else 1) = (S + C - 1) / C := by
  rcases eq_or_ne (S % C) 0 with h | h
  · obtain ⟨q, hq⟩ := Nat.dvd_of_mod_eq_zero h
    rw [if_pos h, hq, Nat.mul_div_cancel_left _ hC]
    have h2 : C * q + C - 1 = (C - 1) + C * q := by
      rw [Nat.add_sub_assoc hC, Nat.add_comm]
    rw [h2, Nat.add_mul_div_left _ _ hC,
      Nat.div_eq_of_lt (Nat.sub_lt hC Nat.one_pos)]
    omega
  · have h1 := Nat.div_add_mod S C
    have hr : S % C < C := Nat.mod_lt _ hC
    rw [if_neg h]
    have h2 : S + C - 1 = (S % C - 1) + C * (S / C + 1) := by
      rw [Nat.mul_add, Nat.mul_one]
      omega
    rw [h2, Nat.add_mul_div_left _ _ hC,
      Nat.div_eq_of_lt (by omega : S % C - 1 < C)]
    omega

theorem allChunks_length (C : Nat) (hC : 0 < C) (data : List Nat) :
    (allChunks C data).length = (data.length + C - 1) / C := by
  rw [allChunks, List.length_append, fullChunks_length C hC,
    ← ceil_div_eq C data.length hC]
  by_cases h : remChunk C data = []
  · have h0 : data.length % C = 0 := by
      rw [← remChunk_length_mod C hC data, h]; rfl
    rw [if_pos h, if_pos h0]; rfl
  · have h0 : data.length % C ≠ 0 := by
      rw [← remChunk_length_mod C hC data]
      simpa [List.length_eq_zero] using h
    rw [if_neg h, if_neg h0]; rfl

theorem allChunks_flatten (C : Nat) (data : List Nat) :
    (allChunks C data).flatten = data := by
  rw [allChunks, List.flatten_append]
  by_cases h : remChunk C data = []
  · rw [if_pos h]
    have h2 := join_fullChunks_remChunk C data
    rw [h, List.append_nil] at h2
    simp [h2]
  · rw [if_neg h]
    simpa using join_fullChunks_remChunk C data

theorem allChunks_mem_length_le (C : Nat) (hC : 0 < C) (data : List Nat) :
    ∀ c ∈ allChunks C data, c.length ≤ C := by
  intro c hc
  rcases List.mem_append.mp hc with h | h
  · exact (fullChunks_mem_length C data c h).le
  · by_cases hr : remChunk C data = []
    · rw [if_pos hr] at h; cases h
    · rw [if_neg hr] at h
      rw [List.mem_singleton.mp h]
      exact (remChunk_length_lt C hC data).le

theorem allChunks_take_length (C : Nat) (hC : 0 < C) (data : List Nat) :
    ∀ c ∈ (allChunks C data).take ((allChunks C data).length - 1),
      c.length = C := by
  intro c hc
  by_cases hr : remChunk C data = []
  · rw [allChunks, if_pos hr, List.append_nil] at hc
    exact fullChunks_mem_length C data c (List.take_subset _ _ hc)
  · rw [allChunks, if_neg hr] at hc
    have hlen : (fullChunks C data ++ [remChunk C data]).length - 1 =
        (fullChunks C data).length := by simp
    rw [hlen, List.take_left] at hc
    exact fullChunks_mem_length C data c hc

theorem withIndexFrom_take (i n : Nat) (l : List Chunk) :
    (withIndexFrom i l).take n = withIndexFrom i (l.take n) := by
  induction l generalizing i n with
  | nil => simp [withIndexFrom]
  | cons c l ih =>
    cases n with
    | zero => simp [withIndexFrom]
    | succ n => simp [withIndexFrom, ih]

theorem mem_withIndexFrom_snd (i : Nat) (l : List Chunk) :
    ∀ p ∈ withIndexFrom i l, p.2 ∈ l := by
  induction l generalizing i with
  | nil => intro p hp; cases hp
  | cons c l ih =>
    intro p hp
    rcases List.mem_cons.mp hp with rfl | hp
    · simp
    · exact List.mem_cons_of_mem _ (ih (i + 1) p hp)

theorem map_getD_range {α : Type} (l : List α) (d : α) :
    (List.range l.length).map (fun i => l.getD i d) = l := by
  induction l with
  | nil => rfl
  | cons a l ih =>
    rw [List.length_cons, List.range_succ_eq_map]
    simp only [List.map_cons, List.getD_cons_zero, List.map_map,
      Function.comp_def, List.getD_cons_succ]
    rw [ih]

/-- Claim C2: for any input stream totalling `S` bytes and chunk size
`C > 0`, the chunk collection phase of `ChunkManager.stream_upload`
produces exactly `⌈S/C⌉` descriptors, indexed contiguously `0..count-1`,
each chunk of size `C` except possibly a shorter final one, and the chunk
sizes sum to `S`. -/
theorem chunking_invariant (C : Nat) (hC : 0 < C) (stream : List (List Nat)) :
    (chunksToUpload C stream).length = (stream.flatten.length + C - 1) / C ∧
    (chunksToUpload C stream).map Prod.fst =
      List.range (chunksToUpload C stream).length ∧
    (∀ p ∈ (chunksToUpload C stream).take
        ((chunksToUpload C stream).length - 1), p.2.length = C) ∧
    (∀ p ∈ chunksToUpload C stream, p.2.length ≤ C) ∧
    ((chunksToUpload C stream).map (fun p => p.2.length)).sum =
      stream.flatten.length := by
  have he := chunksToUpload_eq C hC stream
  refine ⟨?_, ?_, ?_, ?_, ?_⟩
  · rw [he, length_withIndexFrom, allChunks_length C hC]
  · rw [he, map_fst_withIndexFrom, length_withIndexFrom, List.range_eq_range']
  · intro p hp
    rw [he, length_withIndexFrom, withIndexFrom_take] at hp
    exact allChunks_take_length C hC _ _ (mem_withIndexFrom_snd _ _ _ hp)
  · intro p hp
    rw [he] at hp
    exact allChunks_mem_length_le C hC _ _ (mem_withIndexFrom_snd _ _ _ hp)
  · rw [he]
    have h1 : (withIndexFrom 0 (allChunks C stream.flatten)).map
        (fun p => p.2.length) =
        (allChunks C stream.flatten).map List.length := by
      rw [show (fun (p : Nat × Chunk) => p.2.length) =
        List.length ∘ Prod.snd from rfl, ← List.map_map, map_snd_withIndexFrom]
    rw [h1, ← List.length_flatten, allChunks_flatten]

/-- Witness for the chunking invariant: chunk size 2 over the stream
pieces `[1,2,3]` and `[4,5]` (5 bytes, 3 chunks). -/
theorem chunking_invariant_witness :
    0 < 2 ∧
    ((chunksToUpload 2 [[1, 2, 3], [4, 5]]).length =
      (([[1, 2, 3], [4, 5]] : List (List Nat)).flatten.length + 2 - 1) / 2 ∧
    (chunksToUpload 2 [[1, 2, 3], [4, 5]]).map Prod.fst =
      List.range (chunksToUpload 2 [[1, 2, 3], [4, 5]]).length ∧
    (∀ p ∈ (chunksToUpload 2 [[1, 2, 3], [4, 5]]).take
        ((chunksToUpload 2 [[1, 2, 3], [4, 5]]).length - 1),
      p.2.length = 2) ∧
    (∀ p ∈ chunksToUpload 2 [[1, 2, 3], [4, 5]], p.2.length ≤ 2) ∧
    ((chunksToUpload 2 [[1, 2, 3], [4, 5]]).map (fun p => p.2.length)).sum =
      ([[1, 2, 3], [4, 5]] : List (List Nat)).flatten.length) :=
  ⟨by decide, chunking_invariant 2 (by decide) [[1, 2, 3], [4, 5]]⟩

theorem rrRun_eq_map (N : Nat) :
    ∀ (m cur : Nat), cur < N →
      rrRun N cur m = (List.range m).map (fun k => (cur + k) % N) := by
  intro m
  induction m with
  | zero => intro cur hcur; rfl
  | succ m ih =>
    intro cur hcur
    have hN : 0 < N := by omega
    have h1 : rrRun N cur (m + 1) = cur :: rrRun N ((cur + 1) % N) m := rfl
    rw [h1, ih ((cur + 1) % N) (Nat.mod_lt _ hN), List.range_succ_eq_map]
    simp only [List.map_cons, List.map_map, Function.comp_def, Nat.add_zero,
      Nat.mod_eq_of_lt hcur]
    congr 1
    apply List.map_congr_left
    intro k _
    rw [Nat.mod_add_mod]
    congr 1
    omega



/-- Claim C9: from any reachable cursor `cur < N`, the `k`-th of `N`
successive `get_bot(None)` calls selects worker `(cur + k) % N` (the
monotonically incrementing cursor taken modulo `N`), and the `N`
selections are a permutation of `0..N-1`: every worker exactly once
before any repeat. -/
theorem round_robin_visits_all (N cur : Nat) (hcur : cur < N) :
    (∀ k, k < N → (rrRun N cur N)[k]? = some ((cur + k) % N)) ∧
    (rrRun N cur N).Perm (List.range N) := by
  have hN : 0 < N := by omega
  have hmap := rrRun_eq_map N N cur hcur
  constructor
  · intro k hk
    rw [hmap, List.getElem?_map, List.getElem?_range hk]
    rfl
  · rw [hmap]
    have hnd : ((List.range N).map (fun k => (cur + k) % N)).Nodup := by
      refine List.Nodup.map_on ?_ (List.nodup_range N)
      intro x hx y hy hxy
      have hx2 := List.mem_range.mp hx
      have hy2 := List.mem_range.mp hy
      have hmod : x ≡ y [MOD N] := Nat.ModEq.add_left_cancel' cur hxy
      have hmod2 : x % N = y % N := hmod
      rwa [Nat.mod_eq_of_lt hx2, Nat.mod_eq_of_lt hy2] at hmod2
    have hsub : ((List.range N).map (fun k => (cur + k) % N)) ⊆
        List.range N := by
      intro a ha
      rcases List.mem_map.mp ha with ⟨k, _, rfl⟩
      exact List.mem_range.mpr (Nat.mod_lt _ hN)
    have hlen : (List.range N).length ≤
        ((List.range N).map (fun k => (cur + k) % N)).length := by simp
    exact (List.subperm_of_subset hnd hsub).perm_of_length_le hlen

/-- Witness for the round-robin claim: three workers, cursor at 2. -/
theorem round_robin_visits_all_witness :
    2 < 3 ∧
    ((∀ k, k < 3 → (rrRun 3 2 3)[k]? = some ((2 + k) % 3)) ∧
      (rrRun 3 2 3).Perm (List.range 3)) :=
  ⟨by decide, round_robin_visits_all 3 2 (by decide)⟩

/-- Claim C10: `get_bot` called with an explicit index outside `[0, N)`
(including negative indices) never fails; the invalid index is silently
ignored and the call behaves exactly like round-robin selection with no
explicit index. -/
theorem get_bot_invalid_index (N cur : Nat) (i : Int)
    (h : i < 0 ∨ (N : Int) ≤ i) :
    get_bot N (some i) cur = get_bot N none cur := by
  have hcond : ¬(0 ≤ i ∧ i < (N : Int)) := by omega
  simp only [get_bot, if_neg hcond]

/-- Witness for the invalid-index claim: index `-1` on a two-bot pool. -/
theorem get_bot_invalid_index_witness :
    ((-1 : Int) < 0 ∨ ((2 : Nat) : Int) ≤ -1) ∧
    get_bot 2 (some (-1)) 0 = get_bot 2 none 0 :=
  ⟨by decide, get_bot_invalid_index 2 0 (-1) (by decide)⟩

/-- Claim C5 counterexample: an `upload_chunk` call that hits two
successive rate-limit signals makes three transport attempts, refuting
the claimed bound of at most two attempts per original call. -/
theorem upload_retry_unbounded_cex :
    (upload_chunk 2 [TgResp.retryAfter 1, TgResp.retryAfter 1, TgResp.ok]
      none 0 [] [7]).attempts = 3 ∧
    ¬ (upload_chunk 2 [TgResp.retryAfter 1, TgResp.retryAfter 1, TgResp.ok]
      none 0 [] [7]).attempts ≤ 2 := by decide

/-- Claim C5 (amended): on every rate-limit signal `upload_chunk` sleeps
the required wait and retries on a freshly round-robin-selected worker,
and this repeats for each consecutive rate-limit signal: with `ws`
leading rate-limit responses followed by a success, the call sleeps
exactly the waits `ws`, makes `ws.length + 1` transport attempts (one
plus the number of rate-limit signals - unbounded, not at most two),
selects the bots round-robin, and finally succeeds. -/
theorem upload_retry_behaviour (N : Nat) (ws : List Nat) (cur : Nat)
    (env : List Chunk) (chunk : Chunk) (hcur : cur < N) :
    upload_chunk N (ws.map TgResp.retryAfter ++ [TgResp.ok]) none cur env
        chunk =
      ⟨some (env.length, env.length, (cur + ws.length) % N),
       (cur + ws.length + 1) % N, env ++ [chunk], ws, ws.length + 1,
       rrRun N cur (ws.length + 1)⟩ := by
  induction ws generalizing cur with
  | nil =>
    simp only [List.map_nil, List.nil_append, List.length_nil, Nat.add_zero]
    simp [upload_chunk, get_bot, rrRun, Nat.mod_eq_of_lt hcur]
  | cons w ws ih =>
    have hN : 0 < N := by omega
    have hcur2 : (cur + 1) % N < N := Nat.mod_lt _ hN
    simp only [List.map_cons, List.cons_append]
    rw [show upload_chunk N
        (TgResp.retryAfter w :: (ws.map TgResp.retryAfter ++ [TgResp.ok]))
        none cur env chunk =
      (let u := upload_chunk N (ws.map TgResp.retryAfter ++ [TgResp.ok])
        none ((cur + 1) % N) env chunk
       ⟨u.result, u.cursor, u.store, w :: u.sleeps, u.attempts + 1,
        cur :: u.botsUsed⟩) from rfl]
    rw [ih _ hcur2]
    have h1 : ((cur + 1) % N + ws.length) % N = (cur + (ws.length + 1)) % N := by
      rw [Nat.mod_add_mod]
      congr 1
      omega
    have h2 : ((cur + 1) % N + ws.length + 1) % N =
        (cur + (ws.length + 1) + 1) % N := by
      rw [Nat.add_assoc, Nat.mod_add_mod]
      congr 1
      omega
    simp only [h1, h2, List.length_cons]
    rfl

/-- Witness for the amended retry behaviour: two rate-limit signals then
success on a two-bot pool. -/
theorem upload_retry_behaviour_witness :
    0 < 2 ∧
    upload_chunk 2 ([5, 7].map TgResp.retryAfter ++ [TgResp.ok]) none 0 []
        [9] =
      ⟨some (0, 0, (0 + 2) % 2), (0 + 2 + 1) % 2, [[9]], [5, 7], 3,
        rrRun 2 0 3⟩ :=
  ⟨by decide, upload_retry_behaviour 2 [5, 7] 0 [] [9] (by decide)⟩

/-- Claim C8: `delete_chunk` returns `True` exactly when the transport
delete succeeds; a `TelegramError` during the delete yields `False` and
is never re-raised (the call always returns a boolean), so batch
deletions can continue past individual failures. -/
theorem delete_chunk_best_effort :
    ∀ r : DelResp, (delete_chunk r = true ↔ sendDelete r = Except.ok ()) ∧
      (delete_chunk r = false ↔ ∃ e, sendDelete r = Except.error e) := by
  intro r
  cases r <;> simp [delete_chunk, sendDelete]

/-! ### Upload dispatch lemmas -/

theorem runUploads_cons_some (N : Nat) (tasks : List (Nat × Chunk))
    (p : Nat) (sched : List Nat) (cur : Nat) (env : List Chunk) (idx : Nat)
    (chunk : Chunk) (h : tasks[p]? = some (idx, chunk)) :
    runUploads N tasks (p :: sched) cur env =
      (⟨idx, env.length, env.length, cur, chunk.length⟩ ::
        (runUploads N tasks sched ((cur + 1) % N) (env ++ [chunk])).1,
       (runUploads N tasks sched ((cur + 1) % N) (env ++ [chunk])).2.1,
       (runUploads N tasks sched ((cur + 1) % N) (env ++ [chunk])).2.2) := by
  rw [show runUploads N tasks (p :: sched) cur env =
      (match tasks[p]? with
       | some (idx, chunk) =>
         let u := uploadOk N cur env chunk
         let r := runUploads N tasks sched u.2.1 u.2.2
         (⟨idx, u.1.1, u.1.2.1, u.1.2.2, chunk.length⟩ :: r.1, r.2.1, r.2.2)
       | none => runUploads N tasks sched cur env) from rfl, h]
  rfl

theorem runUploads_cons_none (N : Nat) (tasks : List (Nat × Chunk))
    (p : Nat) (sched : List Nat) (cur : Nat) (env : List Chunk)
    (h : tasks[p]? = none) :
    runUploads N tasks (p :: sched) cur env =
      runUploads N tasks sched cur env := by
  rw [show runUploads N tasks (p :: sched) cur env =
      (match tasks[p]? with
       | some (idx, chunk) =>
         let u := uploadOk N cur env chunk
         let r := runUploads N tasks sched u.2.1 u.2.2
         (⟨idx, u.1.1, u.1.2.1, u.1.2.2, chunk.length⟩ :: r.1, r.2.1, r.2.2)
       | none => runUploads N tasks sched cur env) from rfl, h]

theorem runUploads_map_index (N : Nat) (tasks : List (Nat × Chunk)) :
    ∀ (sched : List Nat) (cur : Nat) (env : List Chunk),
      (∀ p ∈ sched, p < tasks.length) →
      ((runUploads N tasks sched cur env).1.map ChunkMeta.chunk_index) =
        sched.map (fun p => (tasks.getD p (0, [])).1) := by
  intro sched
  induction sched with
  | nil => intro cur env _; rfl
  | cons p sched ih =>
    intro cur env h
    have hp : p < tasks.length := h p (List.mem_cons_self p sched)
    have hrest : ∀ q ∈ sched, q < tasks.length :=
      fun q hq => h q (List.mem_cons_of_mem p hq)
    have hG : tasks.getD p (0, []) = tasks[p] := by
      rw [List.getD_eq_getElem?_getD, List.getElem?_eq_getElem hp]
      rfl
    rcases h2 : tasks[p] with ⟨idx, chunk⟩
    have hsome : tasks[p]? = some (idx, chunk) := by
      rw [List.getElem?_eq_getElem hp, h2]
    rw [runUploads_cons_some N tasks p sched cur env idx chunk hsome]
    simp only [List.map_cons]
    rw [ih _ _ hrest]
    congr 1
    rw [hG, h2]

theorem runUploads_store_grows (N : Nat) (tasks : List (Nat × Chunk)) :
    ∀ (sched : List Nat) (cur : Nat) (env : List Chunk), ∃ tail,
      (runUploads N tasks sched cur env).2.2 = env ++ tail := by
  intro sched
  induction sched with
  | nil => intro cur env; exact ⟨[], by simp [runUploads]⟩
  | cons p sched ih =>
    intro cur env
    cases hsome : tasks[p]? with
    | none =>
      rw [runUploads_cons_none N tasks p sched cur env hsome]
      exact ih cur env
    | some pair =>
      rcases pair with ⟨idx, chunk⟩
      rw [runUploads_cons_some N tasks p sched cur env idx chunk hsome]
      rcases ih ((cur + 1) % N) (env ++ [chunk]) with ⟨tail, htail⟩
      exact ⟨[chunk] ++ tail, by rw [htail, List.append_assoc]⟩

theorem runUploads_fetch (N : Nat) (tasks : List (Nat × Chunk)) :
    ∀ (sched : List Nat) (cur : Nat) (env : List Chunk)
      (m : ChunkMeta), m ∈ (runUploads N tasks sched cur env).1 →
      ∃ chunk, (m.chunk_index, chunk) ∈ tasks ∧
        m.chunk_size = chunk.length ∧
        (runUploads N tasks sched cur env).2.2.getD m.file_id [] = chunk := by
  intro sched
  induction sched with
  | nil => intro cur env m hm; cases hm
  | cons p sched ih =>
    intro cur env m hm
    cases hsome : tasks[p]? with
    | none =>
      rw [runUploads_cons_none N tasks p sched cur env hsome] at hm ⊢
      exact ih cur env m hm
    | some pair =>
      rcases pair with ⟨idx, chunk⟩
      rw [runUploads_cons_some N tasks p sched cur env idx chunk hsome]
        at hm ⊢
      rcases runUploads_store_grows N tasks sched ((cur + 1) % N)
        (env ++ [chunk]) with ⟨tail, htail⟩
      rcases List.mem_cons.mp hm with rfl | hm2
      · refine ⟨chunk, ?_, rfl, ?_⟩
        · rcases List.getElem?_eq_some.mp hsome with ⟨hlt, he⟩
          rw [← he]
          exact List.getElem_mem hlt
        · show (runUploads N tasks sched ((cur + 1) % N)
            (env ++ [chunk])).2.2.getD env.length [] = chunk
          rw [htail, List.append_assoc, List.getD_eq_getElem?_getD,
            List.getElem?_append_right (Nat.le_refl env.length),
            Nat.sub_self]
          simp
      · exact ih ((cur + 1) % N) (env ++ [chunk]) m hm2

theorem mem_withIndexFrom_getD (l : List Chunk) :
    ∀ (i : Nat) (p : Nat × Chunk), p ∈ withIndexFrom i l →
      i ≤ p.1 ∧ p.1 - i < l.length ∧ p.2 = l.getD (p.1 - i) [] := by
  induction l with
  | nil => intro i p hp; cases hp
  | cons c l ih =>
    intro i p hp
    rcases List.mem_cons.mp hp with rfl | hp2
    · simp
    · obtain ⟨ha, hb, hc⟩ := ih (i + 1) p hp2
      refine ⟨by omega, by simp only [List.length_cons]; omega, ?_⟩
      have h3 : p.1 - i = (p.1 - (i + 1)) + 1 := by omega
      rw [h3, List.getD_cons_succ]
      exact hc

theorem stream_upload_map_index (N C : Nat) (hC : 0 < C)
    (stream : List (List Nat)) (sched : List Nat) (cur : Nat)
    (env : List Chunk)
    (hsched : sched.Perm (List.range (chunksToUpload C stream).length)) :
    ((stream_upload N C stream sched cur env).1.map ChunkMeta.chunk_index) =
      List.range (chunksToUpload C stream).length := by
  have htasks : (chunksToUpload C stream).map Prod.fst =
      List.range (chunksToUpload C stream).length := by
    rw [chunksToUpload_eq C hC, map_fst_withIndexFrom, length_withIndexFrom,
      List.range_eq_range']
  have hgetd : (List.range (chunksToUpload C stream).length).map
      (fun p => ((chunksToUpload C stream).getD p (0, [])).1) =
      List.range (chunksToUpload C stream).length := by
    have h1 : (List.range (chunksToUpload C stream).length).map
        (fun p => (chunksToUpload C stream).getD p (0, [])) =
        chunksToUpload C stream := map_getD_range _ _
    have h2 : (List.range (chunksToUpload C stream).length).map
        (fun p => ((chunksToUpload C stream).getD p (0, [])).1) =
        ((List.range (chunksToUpload C stream).length).map
          (fun p => (chunksToUpload C stream).getD p (0, []))).map
          Prod.fst := by
      rw [List.map_map]
      rfl
    rw [h2, h1, htasks]
  have hmemrange : ∀ p ∈ List.range (chunksToUpload C stream).length,
      p < (chunksToUpload C stream).length := fun p hp => List.mem_range.mp hp
  simp only [stream_upload]
  by_cases hbr : min N (chunksToUpload C stream).length ≤ 1
  · rw [if_pos hbr, runUploads_map_index N _ _ cur env hmemrange, hgetd]
  · rw [if_neg hbr]
    have hmem : ∀ p ∈ sched, p < (chunksToUpload C stream).length :=
      fun p hp => List.mem_range.mp (hsched.subset hp)
    have hperm : ((List.insertionSort metaLe
        (runUploads N (chunksToUpload C stream) sched cur env).1).map
          ChunkMeta.chunk_index).Perm
        (List.range (chunksToUpload C stream).length) := by
      have hp1 := (List.perm_insertionSort metaLe
        (runUploads N (chunksToUpload C stream) sched cur env).1).map
        ChunkMeta.chunk_index
      rw [runUploads_map_index N _ _ cur env hmem] at hp1
      exact hp1.trans (by rw [← hgetd]
                          exact hsched.map _)
    have hsorted : ((List.insertionSort metaLe
        (runUploads N (chunksToUpload C stream) sched cur env).1).map
          ChunkMeta.chunk_index).Sorted (· ≤ ·) :=
      List.pairwise_map.mpr (List.sorted_insertionSort metaLe _)
    exact List.eq_of_perm_of_sorted hperm hsorted
      (List.sorted_le_range (chunksToUpload C stream).length)

/-- Claim C7: for every upload and every transport completion order (any
permutation of the task positions), the descriptor list returned by
`stream_upload` is sorted in ascending `chunk_index` order: its indices
are exactly `0, 1, ..., count-1`. -/
theorem upload_results_sorted (N C : Nat) (hC : 0 < C)
    (stream : List (List Nat)) (sched : List Nat) (cur : Nat)
    (env : List Chunk)
    (hsched : sched.Perm (List.range (chunksToUpload C stream).length)) :
    ((stream_upload N C stream sched cur env).1.map ChunkMeta.chunk_index) =
      List.range ((stream_upload N C stream sched cur env).1.length) := by
  have h := stream_upload_map_index N C hC stream sched cur env hsched
  have hlen : (stream_upload N C stream sched cur env).1.length =
      (chunksToUpload C stream).length := by
    have h2 := congrArg List.length h
    simpa using h2
  rw [h, hlen]

/-- Witness for the upload ordering claim: two workers, three bytes in
chunks of two, completion order `[1, 0]`. -/
theorem upload_results_sorted_witness :
    0 < 2 ∧
    ([1, 0] : List Nat).Perm
      (List.range (chunksToUpload 2 [[1, 2, 3]]).length) ∧
    ((stream_upload 2 2 [[1, 2, 3]] [1, 0] 0 []).1.map
        ChunkMeta.chunk_index) =
      List.range ((stream_upload 2 2 [[1, 2, 3]] [1, 0] 0 []).1.length) :=
  ⟨by decide, by decide,
    upload_results_sorted 2 2 (by decide) [[1, 2, 3]] [1, 0] 0 []
      (by decide)⟩


/-! ### Download pipeline lemmas -/

theorem dlStep_complete_eq (env : List Chunk) (s : DlState) (j : Nat) :
    dlStep env s (DlEvent.complete j) =
      if j < s.taskRefs.length ∧ j ∉ s.done then
        ⟨s.queue, s.taskRefs, j :: s.done, s.nextYield, s.out⟩
      else s := rfl

theorem dlStep_consume_eq (env : List Chunk) (s : DlState) :
    dlStep env s DlEvent.consume =
      if s.nextYield < s.taskRefs.length ∧ s.nextYield ∈ s.done then
        (match s.queue with
         | [] => ⟨[], s.taskRefs, s.done, s.nextYield + 1,
             s.out ++ [(s.nextYield,
               fetchChunk env (s.taskRefs.getD s.nextYield (0, 0)))]⟩
         | ref :: q => ⟨q, s.taskRefs ++ [ref], s.done, s.nextYield + 1,
             s.out ++ [(s.nextYield,
               fetchChunk env (s.taskRefs.getD s.nextYield (0, 0)))]⟩)
      else s := rfl

theorem dlInit_inv (env : List Chunk) (refs : List (Nat × Nat)) :
    DlInv env refs (dlInit refs) := by
  have hw : min 3 refs.length ≤ refs.length := Nat.min_le_right _ _
  have hlen : (refs.take (min 3 refs.length)).length = min 3 refs.length := by
    rw [List.length_take, Nat.min_eq_left hw]
  refine ⟨?_, ?_, ?_, ?_, ?_⟩
  · show refs.take (min 3 refs.length) =
      refs.take (refs.take (min 3 refs.length)).length
    rw [hlen]
  · show refs.drop (min 3 refs.length) =
      refs.drop (refs.take (min 3 refs.length)).length
    rw [hlen]
  · exact Nat.zero_le _
  · show (refs.take (min 3 refs.length)).length ≤ refs.length
    rw [hlen]
    exact hw
  · rfl

theorem dlStep_inv (env : List Chunk) (refs : List (Nat × Nat))
    (s : DlState) (hs : DlInv env refs s) (e : DlEvent) :
    DlInv env refs (dlStep env s e) := by
  obtain ⟨Q, T, D, n, O⟩ := s
  obtain ⟨h1, h2, h3, h4, h5⟩ := hs
  dsimp only at h1 h2 h3 h4 h5
  cases e with
  | complete j =>
    rw [dlStep_complete_eq]
    dsimp only
    by_cases hc : j < T.length ∧ j ∉ D
    · rw [if_pos hc]
      exact ⟨h1, h2, h3, h4, h5⟩
    · rw [if_neg hc]
      exact ⟨h1, h2, h3, h4, h5⟩
  | consume =>
    rw [dlStep_consume_eq]
    dsimp only
    by_cases hc : n < T.length ∧ n ∈ D
    · rw [if_pos hc]
      have hylt : n < refs.length := Nat.lt_of_lt_of_le hc.1 h4
      have hfetch : T.getD n (0, 0) = refs.getD n (0, 0) := by
        rw [List.getD_eq_getElem?_getD, List.getD_eq_getElem?_getD]
        conv_lhs => rw [h1]
        rw [List.getElem?_take, if_pos hc.1]
      have hTn : T.getD n (0, 0) = refs[n] := by
        rw [hfetch, List.getD_eq_getElem?_getD,
          List.getElem?_eq_getElem hylt]
        rfl
      have hout : O ++ [(n, fetchChunk env (T.getD n (0, 0)))] =
          withIndexFrom 0 ((refs.take (n + 1)).map (fetchChunk env)) := by
        rw [List.take_succ, List.getElem?_eq_getElem hylt, List.map_append,
          withIndexFrom_append, h5, hTn]
        simp only [Option.toList_some, List.map_cons, List.map_nil,
          List.length_map, List.length_take, Nat.zero_add, withIndexFrom]
        rw [Nat.min_eq_left (Nat.le_of_lt hylt)]
      cases Q with
      | nil =>
        refine ⟨h1, h2, ?_, h4, hout⟩
        show n + 1 ≤ T.length
        omega
      | cons ref q =>
        have href : refs[T.length]? = some ref := by
          have hrd := List.getElem?_drop refs T.length 0
          rw [Nat.add_zero, ← h2] at hrd
          simpa using hrd.symm
        have htlt : T.length < refs.length := (List.getElem?_eq_some.mp href).1
        have htake : T ++ [ref] = refs.take (T.length + 1) := by
          rw [List.take_succ, href]
          conv_lhs => rw [h1]
          rfl
        have hq2 : q = refs.drop (T.length + 1) := by
          rw [← List.tail_drop, ← h2]
          rfl
        refine ⟨?_, ?_, ?_, ?_, hout⟩
        · show T ++ [ref] = refs.take (T ++ [ref]).length
          rw [List.length_append, List.length_cons, List.length_nil, htake]
        · show q = refs.drop (T ++ [ref]).length
          rw [List.length_append, List.length_cons, List.length_nil, hq2]
        · show n + 1 ≤ (T ++ [ref]).length
          rw [List.length_append, List.length_cons, List.length_nil]
          omega
        · show (T ++ [ref]).length ≤ refs.length
          rw [List.length_append, List.length_cons, List.length_nil]
          omega
    · rw [if_neg hc]
      exact ⟨h1, h2, h3, h4, h5⟩

theorem dlFold_inv (env : List Chunk) (refs : List (Nat × Nat)) :
    ∀ (evs : List DlEvent) (s : DlState), DlInv env refs s →
      DlInv env refs (evs.foldl (dlStep env) s) := by
  intro evs
  induction evs with
  | nil => intro s hs; exact hs
  | cons e evs ih =>
    intro s hs
    exact ih (dlStep env s e) (dlStep_inv env refs s hs e)

theorem dlRun_inv (env : List Chunk) (refs : List (Nat × Nat))
    (evs : List DlEvent) : DlInv env refs (dlRun env refs evs) :=
  dlFold_inv env refs evs (dlInit refs) (dlInit_inv env refs)

/-- Claim C3: for every list of chunk references and every
fetch-completion schedule, the sequence yielded by `stream_download` is
in strictly ascending chunk-index order: the yielded indices are exactly
`0, 1, 2, ...` in order, so chunk `i` is never yielded before every
chunk `j < i` has been yielded. -/
theorem download_yield_ordered (env : List Chunk) (refs : List (Nat × Nat))
    (evs : List DlEvent) :
    (stream_download env refs evs).map Prod.fst =
      List.range (stream_download env refs evs).length := by
  have hgen : ∀ l : List Chunk, (withIndexFrom 0 l).map Prod.fst =
      List.range (withIndexFrom 0 l).length := by
    intro l
    rw [map_fst_withIndexFrom, length_withIndexFrom, List.range_eq_range']
  simp only [stream_download]
  by_cases hbr : min 3 refs.length ≤ 1
  · rw [if_pos hbr]
    exact hgen _
  · rw [if_neg hbr, (dlRun_inv env refs evs).2.2.2.2]
    exact hgen _

theorem dlRun_complete_out (env : List Chunk) (refs : List (Nat × Nat))
    (evs : List DlEvent)
    (h : (dlRun env refs evs).out.length = refs.length) :
    (dlRun env refs evs).out = withIndexFrom 0 (refs.map (fetchChunk env)) := by
  obtain ⟨h1, h2, h3, h4, h5⟩ := dlRun_inv env refs evs
  rw [h5] at h ⊢
  rw [length_withIndexFrom, List.length_map, List.length_take] at h
  have hge : refs.length ≤ (dlRun env refs evs).nextYield := by omega
  rw [List.take_of_length_le hge]

theorem stream_download_complete (env : List Chunk)
    (refs : List (Nat × Nat)) (evs : List DlEvent)
    (h : (stream_download env refs evs).length = refs.length) :
    stream_download env refs evs =
      withIndexFrom 0 (refs.map (fetchChunk env)) := by
  simp only [stream_download] at h ⊢
  by_cases hbr : min 3 refs.length ≤ 1
  · rw [if_pos hbr]
  · rw [if_neg hbr] at h ⊢
    exact dlRun_complete_out env refs evs h

theorem stream_upload_store_fetch (N C : Nat) (hC : 0 < C)
    (stream : List (List Nat)) (sched : List Nat) (cur : Nat)
    (env : List Chunk) :
    ∀ m ∈ (stream_upload N C stream sched cur env).1,
      (stream_upload N C stream sched cur env).2.2.getD m.file_id [] =
        (allChunks C stream.flatten).getD m.chunk_index [] := by
  have hbridge : ∀ (sched2 : List Nat) (m : ChunkMeta),
      m ∈ (runUploads N (chunksToUpload C stream) sched2 cur env).1 →
      (runUploads N (chunksToUpload C stream) sched2 cur env).2.2.getD
          m.file_id [] =
        (allChunks C stream.flatten).getD m.chunk_index [] := by
    intro sched2 m hm
    obtain ⟨chunk, hmem, _, hfetch⟩ :=
      runUploads_fetch N (chunksToUpload C stream) sched2 cur env m hm
    rw [chunksToUpload_eq C hC] at hmem
    obtain ⟨_, _, hgd⟩ :=
      mem_withIndexFrom_getD (allChunks C stream.flatten) 0
        (m.chunk_index, chunk) hmem
    simp only [Nat.sub_zero] at hgd
    rw [hfetch, hgd]
  intro m hm
  simp only [stream_upload] at hm ⊢
  by_cases hbr : min N (chunksToUpload C stream).length ≤ 1
  · rw [if_pos hbr] at hm ⊢
    exact hbridge _ m hm
  · rw [if_neg hbr] at hm ⊢
    have hm2 : m ∈ (runUploads N (chunksToUpload C stream) sched cur
        env).1 :=
      (List.perm_insertionSort metaLe _).subset hm
    exact hbridge sched m hm2

/-- Claim C1: round trip.  For every byte stream, chunk size `C > 0`,
worker count `N ≥ 1`, every transport completion order of the uploads (a
permutation of the task positions) and every download schedule that
yields everything, downloading the `(file_id, bot_index)` references
produced by `stream_upload` and concatenating the yielded buffers
reproduces the input data byte-for-byte. -/
theorem round_trip (N C : Nat) (hC : 0 < C) (hN : 1 ≤ N)
    (stream : List (List Nat)) (sched : List Nat) (cur : Nat)
    (evs : List DlEvent)
    (hsched : sched.Perm (List.range (chunksToUpload C stream).length))
    (hall : (stream_download (stream_upload N C stream sched cur []).2.2
        ((stream_upload N C stream sched cur []).1.map
          (fun m => (m.file_id, m.bot_index))) evs).length =
      ((stream_upload N C stream sched cur []).1.map
        (fun m => (m.file_id, m.bot_index))).length) :
    ((stream_download (stream_upload N C stream sched cur []).2.2
        ((stream_upload N C stream sched cur []).1.map
          (fun m => (m.file_id, m.bot_index))) evs).map Prod.snd).flatten =
      stream.flatten := by
  have hcomp := stream_download_complete
    (stream_upload N C stream sched cur []).2.2
    ((stream_upload N C stream sched cur []).1.map
      (fun m => (m.file_id, m.bot_index))) evs hall
  rw [hcomp, map_snd_withIndexFrom, List.map_map]
  have hptw : ((stream_upload N C stream sched cur []).1.map
      (fetchChunk (stream_upload N C stream sched cur []).2.2 ∘
        fun m => (m.file_id, m.bot_index))) =
      ((stream_upload N C stream sched cur []).1.map
        (fun m => (allChunks C stream.flatten).getD m.chunk_index [])) := by
    apply List.map_congr_left
    intro m hm
    show (stream_upload N C stream sched cur []).2.2.getD m.file_id [] =
      (allChunks C stream.flatten).getD m.chunk_index []
    exact stream_upload_store_fetch N C hC stream sched cur [] m hm
  rw [hptw]
  have hmm : ((stream_upload N C stream sched cur []).1.map
      (fun m => (allChunks C stream.flatten).getD m.chunk_index [])) =
      (((stream_upload N C stream sched cur []).1.map
        ChunkMeta.chunk_index).map
          (fun i => (allChunks C stream.flatten).getD i [])) := by
    rw [List.map_map]
    rfl
  rw [hmm, stream_upload_map_index N C hC stream sched cur [] hsched]
  have hklen : (chunksToUpload C stream).length =
      (allChunks C stream.flatten).length := by
    rw [chunksToUpload_eq C hC, length_withIndexFrom]
  rw [hklen, map_getD_range, allChunks_flatten]

/-- Witness for the round trip: two workers, data `[1,2,3]` in chunks of
two, uploads completing out of order (`[1, 0]`), downloads completing in
order. -/
theorem round_trip_witness :
    0 < 2 ∧ 1 ≤ 2 ∧
    ([1, 0] : List Nat).Perm
      (List.range (chunksToUpload 2 [[1, 2, 3]]).length) ∧
    (stream_download (stream_upload 2 2 [[1, 2, 3]] [1, 0] 0 []).2.2
        ((stream_upload 2 2 [[1, 2, 3]] [1, 0] 0 []).1.map
          (fun m => (m.file_id, m.bot_index)))
        [DlEvent.complete 0, DlEvent.consume, DlEvent.complete 1,
          DlEvent.consume]).length =
      ((stream_upload 2 2 [[1, 2, 3]] [1, 0] 0 []).1.map
        (fun m => (m.file_id, m.bot_index))).length ∧
    ((stream_download (stream_upload 2 2 [[1, 2, 3]] [1, 0] 0 []).2.2
        ((stream_upload 2 2 [[1, 2, 3]] [1, 0] 0 []).1.map
          (fun m => (m.file_id, m.bot_index)))
        [DlEvent.complete 0, DlEvent.consume, DlEvent.complete 1,
          DlEvent.consume]).map Prod.snd).flatten =
      ([[1, 2, 3]] : List (List Nat)).flatten :=
  ⟨by decide, by decide, by decide, by decide,
    round_trip 2 2 (by decide) (by decide) [[1, 2, 3]] [1, 0] 0
      [DlEvent.complete 0, DlEvent.consume, DlEvent.complete 1,
        DlEvent.consume] (by decide) (by decide)⟩


/-! ### Cache lemmas -/

theorem cacheLookup_insert_self (m : CacheMap) (k : CacheKey)
    (v : Bool × UserRole × Nat) :
    cacheLookup (cacheInsert m k v) k = some v := by
  induction m with
  | nil => simp [cacheInsert, cacheLookup]
  | cons e m ih =>
    by_cases h : e.1 = k
    · simp [cacheInsert, cacheLookup, h]
    · simp [cacheInsert, cacheLookup, h, ih]

theorem cacheLookup_eq_none_of_not_mem (m : CacheMap) (k : CacheKey)
    (h : k ∉ m.map Prod.fst) : cacheLookup m k = none := by
  induction m with
  | nil => rfl
  | cons e m ih =>
    rw [List.map_cons, List.mem_cons] at h
    push_neg at h
    have he : e.1 ≠ k := fun hk => h.1 hk.symm
    simp [cacheLookup, he, ih h.2]

theorem cacheLookup_erase_self (m : CacheMap) (k : CacheKey)
    (hnd : (m.map Prod.fst).Nodup) :
    cacheLookup (cacheErase m k) k = none := by
  induction m with
  | nil => rfl
  | cons e m ih =>
    rw [List.map_cons, List.nodup_cons] at hnd
    by_cases h : e.1 = k
    · rw [show cacheErase (e :: m) k = m from by simp [cacheErase, h]]
      exact cacheLookup_eq_none_of_not_mem m k (h ▸ hnd.1)
    · rw [show cacheErase (e :: m) k = e :: cacheErase m k from
        by simp [cacheErase, h]]
      simp [cacheLookup, h, ih hnd.2]

theorem cacheLookup_erase_ne (m : CacheMap) (k k2 : CacheKey)
    (h : k2 ≠ k) :
    cacheLookup (cacheErase m k) k2 = cacheLookup m k2 := by
  induction m with
  | nil => rfl
  | cons e m ih =>
    by_cases he : e.1 = k
    · rw [show cacheErase (e :: m) k = m from by simp [cacheErase, he]]
      have : e.1 ≠ k2 := fun hk => h (hk.symm.trans he)
      simp [cacheLookup, this]
    · rw [show cacheErase (e :: m) k = e :: cacheErase m k from
        by simp [cacheErase, he]]
      by_cases he2 : e.1 = k2
      · simp [cacheLookup, he2]
      · simp [cacheLookup, he2, ih]

theorem mem_keys_cacheInsert (m : CacheMap) (k : CacheKey)
    (v : Bool × UserRole × Nat) (x : CacheKey)
    (hx : x ∈ (cacheInsert m k v).map Prod.fst) :
    x ∈ m.map Prod.fst ∨ x = k := by
  induction m with
  | nil =>
    simp only [cacheInsert, List.map_cons, List.map_nil,
      List.mem_singleton] at hx
    exact Or.inr hx
  | cons e m ih =>
    by_cases h : e.1 = k
    · rw [show cacheInsert (e :: m) k v = (k, v) :: m from
        by simp [cacheInsert, h]] at hx
      rw [List.map_cons, List.mem_cons] at hx
      rcases hx with hx | hx
      · exact Or.inr hx
      · exact Or.inl (by rw [List.map_cons, List.mem_cons]; exact Or.inr hx)
    · rw [show cacheInsert (e :: m) k v = e :: cacheInsert m k v from
        by simp [cacheInsert, h]] at hx
      rw [List.map_cons, List.mem_cons] at hx
      rcases hx with hx | hx
      · exact Or.inl (by rw [List.map_cons, List.mem_cons]; exact Or.inl hx)
      · rcases ih hx with h2 | h2
        · exact Or.inl (by rw [List.map_cons, List.mem_cons]; exact Or.inr h2)
        · exact Or.inr h2

theorem cacheInsert_keys_nodup (m : CacheMap) (k : CacheKey)
    (v : Bool × UserRole × Nat) (hnd : (m.map Prod.fst).Nodup) :
    ((cacheInsert m k v).map Prod.fst).Nodup := by
  induction m with
  | nil => simp [cacheInsert]
  | cons e m ih =>
    rw [List.map_cons, List.nodup_cons] at hnd
    by_cases h : e.1 = k
    · rw [show cacheInsert (e :: m) k v = (k, v) :: m from
        by simp [cacheInsert, h]]
      rw [List.map_cons, List.nodup_cons]
      exact ⟨h ▸ hnd.1, hnd.2⟩
    · rw [show cacheInsert (e :: m) k v = e :: cacheInsert m k v from
        by simp [cacheInsert, h]]
      rw [List.map_cons, List.nodup_cons]
      refine ⟨?_, ih hnd.2⟩
      intro hmem
      rcases mem_keys_cacheInsert m k v e.1 hmem with h2 | h2
      · exact hnd.1 h2
      · exact h h2

/-- Claim C6: TTL semantics of `PermissionCache.get` (under the dict
key-uniqueness invariant): a cached entry younger than the TTL is
returned exactly as stored with the map untouched; a stale entry makes
`get` return none, removes exactly that entry, and leaves every other
key unchanged; a missing key returns none and changes nothing; `set`
followed by `get` within the TTL returns exactly the stored value, and
`set` followed by `get` after the TTL has elapsed returns none and
deletes the entry. -/
theorem cache_get_ttl (ttl : Nat) (m : CacheMap) (now sid uid : Nat)
    (hnd : (m.map Prod.fst).Nodup) :
    (∀ a r t, cacheLookup m (sid, uid) = some (a, r, t) → now - t < ttl →
      PermissionCache.get ttl m now sid uid = (some (a, r), m)) ∧
    (∀ a r t, cacheLookup m (sid, uid) = some (a, r, t) →
      ¬ now - t < ttl →
      (PermissionCache.get ttl m now sid uid).1 = none ∧
      cacheLookup (PermissionCache.get ttl m now sid uid).2 (sid, uid) =
        none ∧
      ∀ k2 : CacheKey, k2 ≠ (sid, uid) →
        cacheLookup (PermissionCache.get ttl m now sid uid).2 k2 =
          cacheLookup m k2) ∧
    (cacheLookup m (sid, uid) = none →
      PermissionCache.get ttl m now sid uid = (none, m)) ∧
    (∀ t0 a r, now - t0 < ttl →
      PermissionCache.get ttl (PermissionCache.set m t0 sid uid a r) now
        sid uid = (some (a, r), PermissionCache.set m t0 sid uid a r)) ∧
    (∀ t0 a r, ¬ now - t0 < ttl →
      (PermissionCache.get ttl (PermissionCache.set m t0 sid uid a r) now
        sid uid).1 = none ∧
      cacheLookup (PermissionCache.get ttl (PermissionCache.set m t0 sid
        uid a r) now sid uid).2 (sid, uid) = none) := by
  refine ⟨?_, ?_, ?_, ?_, ?_⟩
  · intro a r t hlook hfresh
    simp [PermissionCache.get, hlook, hfresh]
  · intro a r t hlook hstale
    have hget : PermissionCache.get ttl m now sid uid =
        (none, cacheErase m (sid, uid)) := by
      simp [PermissionCache.get, hlook, hstale]
    rw [hget]
    exact ⟨rfl, cacheLookup_erase_self m (sid, uid) hnd,
      fun k2 hk2 => cacheLookup_erase_ne m (sid, uid) k2 hk2⟩
  · intro hlook
    simp [PermissionCache.get, hlook]
  · intro t0 a r hfresh
    have hlook : cacheLookup (PermissionCache.set m t0 sid uid a r)
        (sid, uid) = some (a, r, t0) :=
      cacheLookup_insert_self m (sid, uid) (a, r, t0)
    simp [PermissionCache.get, hlook, hfresh]
  · intro t0 a r hstale
    have hlook : cacheLookup (PermissionCache.set m t0 sid uid a r)
        (sid, uid) = some (a, r, t0) :=
      cacheLookup_insert_self m (sid, uid) (a, r, t0)
    have hnd2 : ((PermissionCache.set m t0 sid uid a r).map
        Prod.fst).Nodup :=
      cacheInsert_keys_nodup m (sid, uid) (a, r, t0) hnd
    have hget : PermissionCache.get ttl
        (PermissionCache.set m t0 sid uid a r) now sid uid =
        (none, cacheErase (PermissionCache.set m t0 sid uid a r)
          (sid, uid)) := by
      simp [PermissionCache.get, hlook, hstale]
    rw [hget]
    exact ⟨rfl, cacheLookup_erase_self _ (sid, uid) hnd2⟩

/-- Witness for the cache TTL semantics: TTL 300, an entry for
storage 1 / user 7 stored at time 0, read at time 100. -/
theorem cache_get_ttl_witness :
    (([((1, 7), (true, UserRole.editor, 0))] : CacheMap).map
      Prod.fst).Nodup ∧
    ((∀ a r t, cacheLookup [((1, 7), (true, UserRole.editor, 0))]
        (1, 7) = some (a, r, t) → 100 - t < 300 →
      PermissionCache.get 300 [((1, 7), (true, UserRole.editor, 0))] 100
        1 7 = (some (a, r), [((1, 7), (true, UserRole.editor, 0))])) ∧
    (∀ a r t, cacheLookup [((1, 7), (true, UserRole.editor, 0))]
        (1, 7) = some (a, r, t) → ¬ 100 - t < 300 →
      (PermissionCache.get 300 [((1, 7), (true, UserRole.editor, 0))] 100
        1 7).1 = none ∧
      cacheLookup (PermissionCache.get 300
        [((1, 7), (true, UserRole.editor, 0))] 100 1 7).2 (1, 7) = none ∧
      ∀ k2 : CacheKey, k2 ≠ (1, 7) →
        cacheLookup (PermissionCache.get 300
          [((1, 7), (true, UserRole.editor, 0))] 100 1 7).2 k2 =
          cacheLookup [((1, 7), (true, UserRole.editor, 0))] k2) ∧
    (cacheLookup [((1, 7), (true, UserRole.editor, 0))] (1, 7) = none →
      PermissionCache.get 300 [((1, 7), (true, UserRole.editor, 0))] 100
        1 7 = (none, [((1, 7), (true, UserRole.editor, 0))])) ∧
    (∀ t0 a r, 100 - t0 < 300 →
      PermissionCache.get 300 (PermissionCache.set
        [((1, 7), (true, UserRole.editor, 0))] t0 1 7 a r) 100 1 7 =
        (some (a, r), PermissionCache.set
          [((1, 7), (true, UserRole.editor, 0))] t0 1 7 a r)) ∧
    (∀ t0 a r, ¬ 100 - t0 < 300 →
      (PermissionCache.get 300 (PermissionCache.set
        [((1, 7), (true, UserRole.editor, 0))] t0 1 7 a r) 100 1 7).1 =
        none ∧
      cacheLookup (PermissionCache.get 300 (PermissionCache.set
        [((1, 7), (true, UserRole.editor, 0))] t0 1 7 a r) 100 1
        7).2 (1, 7) = none)) :=
  ⟨by decide,
    cache_get_ttl 300 [((1, 7), (true, UserRole.editor, 0))] 100 1 7
      (by decide)⟩

/-- Claim C4 counterexample: a negative (no-access) outcome for
storage 1 / user 7 is cached, and a later `check_storage_permission`
well within the TTL sees that cached denial - yet still queries the
durable permission store (`permQueried = true`) and re-derives the 403
instead of answering the denial from the cache. -/
theorem negative_cache_not_used_cex :
    (PermissionCache.get 300
      (PermissionCache.set [] 0 1 7 false UserRole.viewer) 10 1 7).1 =
      some (false, UserRole.viewer) ∧
    (check_storage_permission 300 ⟨[(1, ⟨5⟩)], []⟩ 10 1 7 UserRole.viewer
      (PermissionCache.set [] 0 1 7 false UserRole.viewer)).permQueried =
      true ∧
    (check_storage_permission 300 ⟨[(1, ⟨5⟩)], []⟩ 10 1 7 UserRole.viewer
      (PermissionCache.set [] 0 1 7 false UserRole.viewer)).result =
      Except.error PermError.accessDenied := by decide

/-- Claim C4 (amended): negative outcomes are cached (`set(sid, uid,
False, VIEWER)` when no permission row exists), but a later check within
the TTL does not answer the denial from the cache: the cached negative
entry fails the `has_access` test and the code falls through to the full
durable check, so - whenever the storage exists, the user is not its
owner, and no permission row exists - the durable permission store is
queried again (`permQueried = true`), the 403 denial is raised afresh
and the negative result is re-cached. -/
theorem negative_cache_requeries (ttl : Nat) (db : DB) (now sid uid : Nat)
    (required : UserRole) (m : CacheMap) (r : UserRole) (st : StorageRow)
    (hneg : (PermissionCache.get ttl m now sid uid).1 = some (false, r))
    (hst : dbGetStorage db sid = some st)
    (hown : st.owner_id ≠ uid)
    (hperm : dbGetPerm db sid uid = none) :
    check_storage_permission ttl db now sid uid required m =
      ⟨Except.error PermError.accessDenied,
        PermissionCache.set (PermissionCache.get ttl m now sid uid).2 now
          sid uid false UserRole.viewer, true⟩ := by
  simp only [check_storage_permission, hneg]
  have hcond : ¬((false : Bool) ∧
      role_hierarchy required ≤ role_hierarchy r) := by
    simp
  rw [if_neg hcond]
  simp only [fullCheck, hst, hperm]
  rw [if_neg hown]

/-- Witness for the amended negative-cache behaviour: storage 1 owned by
user 5, checked by user 7 with a fresh cached denial. -/
theorem negative_cache_requeries_witness :
    (PermissionCache.get 300
      (PermissionCache.set [] 0 1 7 false UserRole.viewer) 10 1 7).1 =
      some (false, UserRole.viewer) ∧
    dbGetStorage ⟨[(1, ⟨5⟩)], []⟩ 1 = some ⟨5⟩ ∧
    (⟨5⟩ : StorageRow).owner_id ≠ 7 ∧
    dbGetPerm ⟨[(1, ⟨5⟩)], []⟩ 1 7 = none ∧
    check_storage_permission 300 ⟨[(1, ⟨5⟩)], []⟩ 10 1 7 UserRole.viewer
      (PermissionCache.set [] 0 1 7 false UserRole.viewer) =
      ⟨Except.error PermError.accessDenied,
        PermissionCache.set (PermissionCache.get 300
          (PermissionCache.set [] 0 1 7 false UserRole.viewer) 10 1 7).2
          10 1 7 false UserRole.viewer, true⟩ :=
  ⟨by decide, by decide, by decide, by decide,
    negative_cache_requeries 300 ⟨[(1, ⟨5⟩)], []⟩ 10 1 7 UserRole.viewer
      (PermissionCache.set [] 0 1 7 false UserRole.viewer)
      UserRole.viewer ⟨5⟩ (by decide) (by decide) (by decide) (by decide)⟩


end TeleVault
